import Mathlib

set_option maxHeartbeats 1000000

/- Verification development for the Email/Phone Hunter domain-restricted
   crawler (src/app.py).  Python strings are modelled as Lean String values
   and the string routines are translated to executable functions over lists
   of characters.  Lowercasing is modelled on the ASCII range, which covers
   every character the candidate regular expressions can match. -/

/-- Model of Python str.lower for one character in the ASCII range: codes 65
to 90 are shifted up by 32, everything else is unchanged. -/
def lowerChar (c : Char) : Char :=
  if 65 ≤ c.toNat ∧ c.toNat ≤ 90 then Char.ofNat (c.toNat + 32) else c

/-- Model of Python str.lower on a whole string (ASCII range). -/
def lowerS (s : String) : String := ⟨s.data.map lowerChar⟩

/-- Characters removed by Python str.strip with no argument (ASCII whitespace). -/
def isPySpace (c : Char) : Bool :=
  c.toNat == 32 || c.toNat == 9 || c.toNat == 10 || c.toNat == 13 ||
    c.toNat == 11 || c.toNat == 12

/-- Characters of the strip argument on src/app.py line 35, by character code:
dot comma semicolon colon bang question doublequote quote parens brackets
braces angle brackets. -/
def isPunct (c : Char) : Bool :=
  c.toNat == 46 || c.toNat == 44 || c.toNat == 59 || c.toNat == 58 ||
    c.toNat == 33 || c.toNat == 63 || c.toNat == 34 || c.toNat == 39 ||
    c.toNat == 40 || c.toNat == 41 || c.toNat == 91 || c.toNat == 93 ||
    c.toNat == 123 || c.toNat == 125 || c.toNat == 60 || c.toNat == 62

/-- Model of the Python strip family: remove characters satisfying p from both
ends of the list. -/
def stripList (p : Char → Bool) (l : List Char) : List Char :=
  ((l.dropWhile p).reverse.dropWhile p).reverse

/-- Python str.strip with no argument. -/
def pyStripWs (s : String) : String := ⟨stripList isPySpace s.data⟩

/-- Python str.strip with the punctuation argument of src/app.py line 35. -/
def pyStripPunct (s : String) : String := ⟨stripList isPunct s.data⟩

/-- Model of normalize_email (src/app.py lines 34 to 35): strip whitespace,
strip surrounding punctuation, lowercase. -/
def normalize_email (e : String) : String := lowerS (pyStripPunct (pyStripWs e))

/-- Split a character list at the first occurrence of sep, modelling Python
split with maxsplit one. -/
def splitFirstList (sep : Char) : List Char → Option (List Char × List Char)
  | [] => none
  | c :: cs =>
      if c = sep then some ([], cs)
      else (splitFirstList sep cs).map (fun pr => (c :: pr.1, pr.2))

/-- Substring after the first at sign, modelling split on the at sign with
maxsplit one, index one (src/app.py line 43). -/
def afterFirstAt (s : String) : Option String :=
  (splitFirstList '@' s.data).map (fun pr => (String.mk pr.2))

/-- Model of Python str.endswith. -/
def pyEndsWith (s t : String) : Bool := t.data.isSuffixOf s.data

/-- Model of email_matches_allowed (src/app.py lines 41 to 44). -/
def email_matches_allowed (email : String) (allowed : List String) : Bool :=
  match afterFirstAt email with
  | none => false
  | some dm => allowed.any (fun d => lowerS dm == d || pyEndsWith (lowerS dm) ("." ++ d))

/-- Model of domain_allowed (src/app.py lines 37 to 39). -/
def domain_allowed (host : String) (allowed : List String) : Bool :=
  allowed.any (fun d => lowerS host == d || pyEndsWith (lowerS host) ("." ++ d))

/-- One step of the extract_emails loop body (src/app.py lines 113 to 116). -/
def emailStep (allowed : List String) (hits : List String) (c : String) : List String :=
  let email := normalize_email c
  if email_matches_allowed email allowed then
    (if hits.contains email then hits else hits ++ [email])
  else hits

/-- Model of extract_emails (src/app.py lines 110 to 117).  The regular
expression engine is an external collaborator, so the candidate matches of
EMAIL_RE over the text arrive as a list of matched substrings; the set of hits
is modelled as a duplicate-free list in insertion order. -/
def extract_emails (cands allowed : List String) : List String :=
  cands.foldl (emailStep allowed) []

/-- ASCII uppercase letter test, matching the A to Z regex class. -/
def isUpperA (c : Char) : Bool := 65 ≤ c.toNat && c.toNat ≤ 90

/-- ASCII lowercase letter test. -/
def isLowerA (c : Char) : Bool := 97 ≤ c.toNat && c.toNat ≤ 122

/-- ASCII letter test, matching the case-insensitive regex letter class. -/
def isAlphaA (c : Char) : Bool := isUpperA c || isLowerA c

/-- ASCII digit test. -/
def isDigitA (c : Char) : Bool := 48 ≤ c.toNat && c.toNat ≤ 57

/-- Character class of the local part of EMAIL_RE (src/app.py line 20):
letters, digits, dot, underscore, percent, plus, minus. -/
def isLocalChar (c : Char) : Bool :=
  isAlphaA c || isDigitA c || c.toNat == 46 || c.toNat == 95 ||
    c.toNat == 37 || c.toNat == 43 || c.toNat == 45

/-- Character class of the domain part of EMAIL_RE: letters, digits, dot,
minus. -/
def isDomainChar (c : Char) : Bool :=
  isAlphaA c || isDigitA c || c.toNat == 46 || c.toNat == 45

/-- Shape of a full match of EMAIL_RE (src/app.py line 20): a nonempty local
part over the local character class, an at sign, then a domain over the domain
character class that ends in a dot followed by at least two letters. -/
def isEmailCandidate (s : String) : Bool :=
  match splitFirstList '@' s.data with
  | none => false
  | some (loc, dm) =>
      !loc.isEmpty && loc.all isLocalChar && dm.all isDomainChar &&
        (let tld := dm.reverse.takeWhile isAlphaA
         let restRev := dm.reverse.dropWhile isAlphaA
         decide (2 ≤ tld.length) && (restRev.headD ' ' == '.') &&
           !(restRev.drop 1).isEmpty)

/-- Parts of a parsed URL that the crawler uses. -/
structure UrlParts where
  scheme : String
  netloc : String
  rest : String
deriving DecidableEq

/-- Scheme characters of CPython urllib.parse: letters, digits, plus, minus,
dot. -/
def isSchemeChar (c : Char) : Bool :=
  isAlphaA c || isDigitA c || c.toNat == 43 || c.toNat == 45 || c.toNat == 46

/-- Model of the scheme and netloc extraction of CPython urllib.parse.urlsplit:
leading and trailing characters up to code 32 are stripped, tab carriage
return and newline are removed everywhere, an initial alphabetic run of scheme
characters before a colon is split off and lowercased, and a netloc after a
double slash runs to the next slash, question mark or number sign.  Bracket
mismatch validation is not modelled. -/
def urlparse_m (url : String) : UrlParts :=
  let u0 := stripList (fun c => decide (c.toNat ≤ 32)) url.data
  let u := u0.filter (fun c => !(c.toNat == 9 || c.toNat == 10 || c.toNat == 13))
  let sp :=
    match splitFirstList ':' u with
    | some pr =>
        if !pr.1.isEmpty && isAlphaA (pr.1.headD ' ') && pr.1.all isSchemeChar then
          (pr.1.map lowerChar, pr.2)
        else ([], u)
    | none => ([], u)
  match sp.2 with
  | c1 :: c2 :: tail =>
      if c1.toNat == 47 && c2.toNat == 47 then
        { scheme := String.mk sp.1,
          netloc := String.mk
            (tail.takeWhile (fun c => !(c.toNat == 47 || c.toNat == 63 || c.toNat == 35))),
          rest := String.mk
            (tail.dropWhile (fun c => !(c.toNat == 47 || c.toNat == 63 || c.toNat == 35))) }
      else { scheme := String.mk sp.1, netloc := "", rest := String.mk sp.2 }
  | _ => { scheme := String.mk sp.1, netloc := "", rest := String.mk sp.2 }

/-- Part of a netloc after the last at sign (CPython rpartition on the at
sign). -/
def afterLastAt (l : List Char) : List Char :=
  match splitFirstList '@' l.reverse with
  | none => l
  | some pr => pr.1.reverse

/-- Model of the hostname property of a CPython split result: drop userinfo up
to the last at sign, then take a bracketed IPv6 literal or the part before the
first colon, lowercased; none when empty. -/
def hostname_m (netloc : String) : Option String :=
  let hostinfo := afterLastAt netloc.data
  let host :=
    if hostinfo.any (fun c => c.toNat == 91) then
      ((hostinfo.dropWhile (fun c => !(c.toNat == 91))).drop 1).takeWhile
        (fun c => !(c.toNat == 93))
    else hostinfo.takeWhile (fun c => !(c.toNat == 58))
  if host.isEmpty then none else some (String.mk (host.map lowerChar))

/-- Link filtering of the orchestrator (src/app.py lines 230 to 235) over the
outbound links of one page: drop links already seen, require an http or https
scheme, then accept when external follow is on or the netloc passes
domain_allowed. -/
def filter_links (out_links seen : List String) (external_follow : Bool)
    (allowed : List String) : List String :=
  out_links.filter (fun nxt =>
    if seen.contains nxt then false
    else if !((urlparse_m nxt).scheme == "http" || (urlparse_m nxt).scheme == "https") then
      false
    else external_follow || domain_allowed (urlparse_m nxt).netloc allowed)

/-- Model of CPython urllib.robotparser.RobotFileParser state: the two global
flags, whether a read ever completed, and the decision procedure of the parsed
entries, abstracted as a function because the claim only exercises the
flags. -/
structure RFP where
  disallowAll : Bool
  allowAll : Bool
  lastChecked : Bool
  rules : String → String → Bool

/-- Parser state produced by the RobotFileParser constructor: nothing read
yet. -/
def freshRFP : RFP :=
  { disallowAll := false, allowAll := false, lastChecked := false, rules := fun _ _ => true }

/-- Model of CPython RobotFileParser.can_fetch: disallow-all wins, then
allow-all, and a parser that never completed a read denies every request. -/
def rfp_can_fetch (rp : RFP) (ua url : String) : Bool :=
  if rp.disallowAll then false
  else if rp.allowAll then true
  else if !rp.lastChecked then false
  else rp.rules ua url

/-- Outcome of RobotFileParser.read for one origin: a successful download and
parse, an HTTP error handled inside read, or an exception such as a URLError
that propagates to the caller. -/
inductive RobotsReadOutcome where
  | success (rp : RFP)
  | httpErr (code : Nat)
  | raised

/-- Effect of RobotFileParser.read on a fresh parser (CPython: codes 401 and
403 set disallow_all, other 4xx codes set allow_all, any other HTTP error
changes nothing, and a propagating exception leaves the parser untouched). -/
def applyRead : RobotsReadOutcome → RFP
  | RobotsReadOutcome.raised => freshRFP
  | RobotsReadOutcome.httpErr code =>
      if code == 401 || code == 403 then { freshRFP with disallowAll := true }
      else if 400 ≤ code ∧ code < 500 then { freshRFP with allowAll := true }
      else freshRFP
  | RobotsReadOutcome.success rp => rp

/-- Model of load_robots (src/app.py lines 46 to 56): return the cached parser
for the origin if present, else construct a fresh parser, attempt the read
with any raised exception swallowed, and cache the result either way. -/
def load_robots (outcome : String → RobotsReadOutcome) (origin : String)
    (cache : List (String × RFP)) : RFP × List (String × RFP) :=
  match cache.find? (fun pr => pr.1 == origin) with
  | some pr => (pr.2, cache)
  | none =>
      let rp := applyRead (outcome origin)
      (rp, cache ++ [(origin, rp)])

/-- Model of can_fetch (src/app.py lines 58 to 69): honor toggle, scheme and
netloc check, then the cached ruleset decides; the surrounding try never fires
here because rfp_can_fetch is total. -/
def can_fetch (outcome : String → RobotsReadOutcome) (cache : List (String × RFP))
    (url ua : String) (honor_robots : Bool) : Bool × List (String × RFP) :=
  if !honor_robots then (true, cache)
  else
    let p := urlparse_m url
    if !((p.scheme == "http" || p.scheme == "https") && !(p.netloc == "")) then
      (false, cache)
    else
      let origin := p.scheme ++ "://" ++ p.netloc
      let lr := load_robots outcome origin cache
      (rfp_can_fetch lr.1 ua url, lr.2)

/-- First index at which the needle occurs in the haystack, modelling Python
str.find; the empty needle matches at index zero. -/
def findSub (needle : List Char) : List Char → Option Nat
  | [] => if needle.isPrefixOf [] then some 0 else none
  | c :: t =>
      if needle.isPrefixOf (c :: t) then some 0
      else (findSub needle t).map (fun n => n + 1)

/-- Substring containment test built on findSub. -/
def listInfix (pat l : List Char) : Bool :=
  match findSub pat l with
  | some _ => true
  | none => false

/-- Model of is_content_html (src/app.py lines 91 to 93). -/
def is_content_html (ct : String) : Bool :=
  let c := lowerS ct
  listInfix "text/html".data c.data || listInfix "application/xhtml".data c.data

/-- Model of is_content_pdf (src/app.py lines 95 to 97). -/
def is_content_pdf (ct : String) : Bool :=
  let c := lowerS ct
  listInfix "application/pdf".data c.data || pyEndsWith c "/pdf"

/-- Snippet window length (src/app.py line 29). -/
def SNIP_LEN : Nat := 160

/-- Model of Python str.split with no argument: words separated by whitespace
runs, driven by a fuel bounded by the input length. -/
def splitWsFuel : Nat → List Char → List (List Char)
  | 0, _ => []
  | _ + 1, [] => []
  | fuel + 1, c :: cs =>
      if isPySpace c then splitWsFuel fuel cs
      else
        ((c :: cs).takeWhile (fun d => !isPySpace d)) ::
          splitWsFuel fuel ((c :: cs).dropWhile (fun d => !isPySpace d))

/-- Python str.split with no argument. -/
def splitWs (l : List Char) : List (List Char) := splitWsFuel (l.length + 1) l

/-- Join word lists with single spaces, modelling the join on src/app.py
line 108. -/
def joinWords (ws : List (List Char)) : List Char := List.intercalate [' '] ws

/-- Model of snippet_around (src/app.py lines 103 to 108): locate the needle
case-insensitively, cut a window of about SNIP_LEN characters around it, and
collapse internal whitespace. -/
def snippet_around (text needle : String) : String :=
  if text == "" then ""
  else
    match findSub (lowerS needle).data (lowerS text).data with
    | none => ""
    | some i =>
        let start := i - SNIP_LEN / 2
        let stop := min text.data.length (i + needle.data.length + SNIP_LEN / 2)
        String.mk (joinWords (splitWs ((text.data.drop start).take (stop - start))))

/-- Model of extract_phones (src/app.py lines 119 to 128) over the raw regex
matches of PHONE_RE: strip each match, deduplicate, and keep those with at
least eight digits. -/
def extract_phones (cands : List String) : List String :=
  let raw := cands.foldl
    (fun acc x =>
      let y := pyStripWs x
      if acc.contains y then acc else acc ++ [y]) []
  raw.filter (fun p => 8 ≤ (p.data.filter isDigitA).length)

/-- Replace every occurrence of pat by rep scanning left to right, driven by
fuel, modelling Python str.replace. -/
def replaceAllAux (pat rep : List Char) : Nat → List Char → List Char
  | 0, l => l
  | _ + 1, [] => []
  | fuel + 1, c :: cs =>
      if pat.isPrefixOf (c :: cs) then
        rep ++ replaceAllAux pat rep fuel ((c :: cs).drop pat.length)
      else c :: replaceAllAux pat rep fuel cs

/-- Model of Python str.replace on strings. -/
def replaceAllS (s pat rep : String) : String :=
  String.mk (replaceAllAux pat.data rep.data s.data.length s.data)

/-- Mailto address extraction (src/app.py lines 134 to 137): remove the mailto
scheme text and cut at the first question mark. -/
def mailtoEmail (href : String) : String :=
  let e := replaceAllS href "mailto:" ""
  match splitFirstList '?' e.data with
  | none => e
  | some pr => String.mk pr.1

/-- One output record (src/app.py lines 240 to 249, 255 to 264, 270 to 279). -/
structure Record where
  type : String
  value : String
  domain : String
  source_url : String
  source_type : String
  page_title : String
  snippet : String
  first_seen : String
deriving DecidableEq

/-- Session configuration after argument parsing (src/app.py lines 152 to
169); rate and output path do not affect the modelled state. -/
structure Config where
  domains : List String
  maxPages : Int
  depth : Int
  includePdfs : Bool
  includePhones : Bool
  honorRobots : Bool
  externalFollow : Bool
  userAgent : String
  pdfOk : Bool

/-- Allowed suffix set computed on src/app.py line 168: drop entries that
strip to empty, lowercase the rest. -/
def mkAllowed (domains : List String) : List String :=
  (domains.filter (fun d => !(pyStripWs d == ""))).map lowerS

/-- Response data of one fetch as seen through the external collaborators:
HTTP status, final post-redirect URL, declared content type, and the parse
results of the HTML and PDF collaborators for this body. -/
structure Resp where
  status : Int
  finalUrl : String
  contentType : String
  title : String
  text : String
  mailtoHrefs : List String
  anchorHrefs : List String
  pdfText : String

/-- External collaborators of one crawl session: robots read outcomes per
origin, the transport fetch, URL resolution, the two regex engines, and the
clock indexed by call count. -/
structure Oracle where
  robotsOutcome : String → RobotsReadOutcome
  fetch : String → Option Resp
  urljoin : String → String → String
  emailMatches : String → List String
  phoneMatches : String → List String
  nowIso : Nat → String

/-- Crawl state (src/app.py lines 175 to 190).  fetchLog and enqLog are ghost
instrumentation recording every fetch attempt and every enqueued work item
with its depth. -/
structure CrawlState where
  queue : List (String × Int)
  seen : List String
  robotsCache : List (String × RFP)
  pages : Nat
  tick : Nat
  fetchLog : List (String × Int)
  enqLog : List (String × Int)
  emailsBest : List (String × Record)
  results : List Record

/-- Empty session state. -/
def emptyState : CrawlState :=
  { queue := [], seen := [], robotsCache := [], pages := 0, tick := 0,
    fetchLog := [], enqLog := [], emailsBest := [], results := [] }

/-- PDF title sentinel (src/app.py line 219). -/
def pdfSentinel : String := "(PDF)"

/-- Model of handle_html (src/app.py lines 130 to 143) through the HTML parse
collaborator: truncate the title to 140 characters, append every mailto
address to the page text, and resolve outbound links only below the maximum
depth. -/
def handle_html (o : Oracle) (resp : Resp) (depth max_depth : Int) :
    String × String × List String :=
  let page_title := String.mk (resp.title.data.take 140)
  let page_text := resp.mailtoHrefs.foldl (fun t href => t ++ " " ++ mailtoEmail href) resp.text
  let out_links :=
    if depth < max_depth then resp.anchorHrefs.map (fun h => o.urljoin resp.finalUrl h) else []
  (page_title, page_text, out_links)

/-- Model of handle_pdf (src/app.py lines 145 to 150): empty when the PDF
library is absent, else the collaborator text (a parse failure is an empty
collaborator text). -/
def handle_pdf (pdfOk : Bool) (resp : Resp) : String :=
  if pdfOk then resp.pdfText else ""

/-- Email record construction (src/app.py lines 240 to 249). -/
def mkEmailRecord (o : Oracle) (tick : Nat) (finalUrl title text email : String) : Record :=
  { type := "email", value := email,
    domain := (afterFirstAt email).getD "",
    source_url := finalUrl,
    source_type := if title == pdfSentinel then "pdf" else "html",
    page_title := title,
    snippet := snippet_around text email,
    first_seen := o.nowIso tick }

/-- Phone record construction (src/app.py lines 255 to 264). -/
def mkPhoneRecord (o : Oracle) (tick : Nat) (finalUrl title text ph : String) : Record :=
  { type := "phone", value := ph, domain := "",
    source_url := finalUrl,
    source_type := if title == pdfSentinel then "pdf" else "html",
    page_title := title,
    snippet := snippet_around text ph,
    first_seen := o.nowIso tick }

/-- The dedup insert of the aggregator (src/app.py lines 250 to 251): store
only when the normalized email key is absent. -/
def record_email (m : List (String × Record)) (email : String) (r : Record) :
    List (String × Record) :=
  if m.any (fun pr => pr.1 == email) then m else m ++ [(email, r)]

/-- Email recording loop (src/app.py lines 239 to 251). -/
def recordEmails (o : Oracle) (allowed : List String) (finalUrl title text : String)
    (st : CrawlState) : CrawlState :=
  (extract_emails (o.emailMatches text) allowed).foldl
    (fun st email =>
      let r := mkEmailRecord o st.tick finalUrl title text email
      { st with tick := st.tick + 1, emailsBest := record_email st.emailsBest email r }) st

/-- Phone recording loop (src/app.py lines 253 to 264). -/
def recordPhones (o : Oracle) (finalUrl title text : String) (st : CrawlState) : CrawlState :=
  (extract_phones (o.phoneMatches text)).foldl
    (fun st ph =>
      { st with tick := st.tick + 1, results := st.results ++ [mkPhoneRecord o st.tick finalUrl title text ph] }) st

/-- Processing of one successfully dispatched page (src/app.py lines 225 to
264): count the page, filter and enqueue outbound links below the depth limit,
then record emails and optionally phones. -/
def processPage (cfg : Config) (o : Oracle) (st : CrawlState) (depth : Int)
    (finalUrl title text : String) (out_links : List String) : CrawlState :=
  let st1 := { st with pages := st.pages + 1 }
  let accepted :=
    if depth < cfg.depth then
      filter_links out_links st1.seen cfg.externalFollow (mkAllowed cfg.domains)
    else []
  let newItems := accepted.map (fun l => (l, depth + 1))
  let st2 := { st1 with queue := st1.queue ++ newItems, enqLog := st1.enqLog ++ newItems }
  let st3 := recordEmails o (mkAllowed cfg.domains) finalUrl title text st2
  if cfg.includePhones then recordPhones o finalUrl title text st3 else st3

/-- Content dispatch after the status check (src/app.py lines 211 to 223):
HTML pages go through handle_html, PDF bodies are accepted only with the PDF
option, anything else is discarded. -/
def afterStatus (cfg : Config) (o : Oracle) (st : CrawlState) (depth : Int)
    (resp : Resp) : CrawlState :=
  let ct := lowerS resp.contentType
  if is_content_html ct then
    let h := handle_html o resp depth cfg.depth
    processPage cfg o st depth resp.finalUrl h.1 h.2.1 h.2.2
  else if cfg.includePdfs && is_content_pdf ct then
    processPage cfg o st depth resp.finalUrl pdfSentinel (handle_pdf cfg.pdfOk resp) []
  else st

/-- Status gate and dispatch for one fetched response (src/app.py lines 207
to 209): only a status of exactly 200 proceeds. -/
def processResp (cfg : Config) (o : Oracle) (st : CrawlState) (depth : Int)
    (resp : Resp) : CrawlState :=
  if resp.status ≠ 200 then st else afterStatus cfg o st depth resp

/-- Politeness phase of one work item (src/app.py line 196): the gate is
consulted only when robots are honored, and it returns the verdict and the
possibly grown cache. -/
def robotsPhase (cfg : Config) (o : Oracle) (cache : List (String × RFP))
    (url0 : String) : Bool × List (String × RFP) :=
  if cfg.honorRobots then can_fetch o.robotsOutcome cache url0 cfg.userAgent true
  else (true, cache)

/-- Fetch phase of one work item (src/app.py lines 199 to 264): a transport
error discards the item, a response goes through the status gate and dispatch. -/
def fetchPhase (cfg : Config) (o : Oracle) (st : CrawlState) (url0 : String)
    (depth : Int) : CrawlState :=
  match o.fetch url0 with
  | none => st
  | some resp => processResp cfg o st depth resp

/-- Processing of one dequeued work item (src/app.py lines 192 to 264): the
visited check, the visited insert, the politeness gate, the logged fetch
attempt and the response processing. -/
def stepItem (cfg : Config) (o : Oracle) (st : CrawlState) (url0 : String)
    (depth : Int) : CrawlState :=
  if st.seen.contains url0 then st
  else
    if (robotsPhase cfg o st.robotsCache url0).1 then
      fetchPhase cfg o
        { st with seen := st.seen ++ [url0], robotsCache := (robotsPhase cfg o st.robotsCache url0).2, fetchLog := st.fetchLog ++ [(url0, depth)] } url0 depth
    else
      { st with seen := st.seen ++ [url0], robotsCache := (robotsPhase cfg o st.robotsCache url0).2 }

/-- One iteration of the crawl loop: pop the front work item and process
it. -/
def crawlStep (cfg : Config) (o : Oracle) (st : CrawlState) : CrawlState :=
  match st.queue with
  | [] => st
  | item :: tl => stepItem cfg o { st with queue := tl } item.1 item.2

/-- The crawl loop (src/app.py line 191), driven by fuel: iterate while the
queue is nonempty and the page budget is not exhausted. -/
def crawlRun (cfg : Config) (o : Oracle) : Nat → CrawlState → CrawlState
  | 0, st => st
  | fuel + 1, st =>
      match st.queue with
      | [] => st
      | _ :: _ =>
          if (st.pages : Int) < cfg.maxPages then crawlRun cfg o fuel (crawlStep cfg o st)
          else st

/-- Seed loading (src/app.py lines 182 to 188): enqueue every seed whose
parsed scheme is http or https at depth zero. -/
def initState (seeds : List String) : CrawlState :=
  seeds.foldl
    (fun st u =>
      if (urlparse_m u).scheme == "http" || (urlparse_m u).scheme == "https" then
        { st with queue := st.queue ++ [(u, 0)], enqLog := st.enqLog ++ [(u, 0)] }
      else st) emptyState

/-- Sentinel snippet text (src/app.py line 277). -/
def noHitsSnippet : String :=
  "No emails/phones matched. Try --external-follow, --include-pdfs, --include-phones, a real browser UA, smaller depth, different seeds."

/-- The no-hits sentinel record (src/app.py lines 270 to 279). -/
def noHitsRecord (now : String) : Record :=
  { type := "info", value := "no_hits", domain := "", source_url := "",
    source_type := "", page_title := "", snippet := noHitsSnippet, first_seen := now }

/-- Finalization (src/app.py lines 266 to 279): append the deduplicated email
records to the phone results, and synthesize the sentinel when nothing was
found. -/
def finalize_results (now : String) (emailsBest : List (String × Record))
    (results : List Record) : List Record :=
  let results2 := results ++ emailsBest.map (fun pr => pr.2)
  if results2.isEmpty then [noHitsRecord now] else results2

/-- Lookup in the email map by key. -/
def lookupA (m : List (String × Record)) (e : String) : Option Record :=
  (m.find? (fun pr => pr.1 == e)).map Prod.snd

/-- Fetch log invariant of claim C2: the logged URLs are pairwise distinct and
every logged URL is in the visited set. -/
def FetchInv (st : CrawlState) : Prop :=
  (st.fetchLog.map Prod.fst).Nodup ∧ ∀ u ∈ st.fetchLog.map Prod.fst, u ∈ st.seen

/-- Depth invariant of claim C7 for a bound d: every queued item, every
enqueued item and every fetch attempt stays at depth at most d. -/
def DepthInv (d : Int) (st : CrawlState) : Prop :=
  (∀ it ∈ st.queue, it.2 ≤ d) ∧ (∀ it ∈ st.enqLog, it.2 ≤ d) ∧
    (∀ it ∈ st.fetchLog, it.2 ≤ d)

/-- Record property of claim C10: the stored domain is the substring of the
lowercase value after the first at sign and matches a scope suffix. -/
def RecordInScope (allowed : List String) (pr : String × Record) : Prop :=
  (∃ dm, afterFirstAt pr.2.value = some dm ∧ pr.2.domain = dm) ∧
  pr.2.value = lowerS pr.2.value ∧
  (∃ d ∈ allowed, pr.2.domain = d ∨ pyEndsWith pr.2.domain ("." ++ d) = true)

/-- Email map invariant: keys are unique and every stored record is in
scope. -/
def EmailMapInv (allowed : List String) (st : CrawlState) : Prop :=
  (st.emailsBest.map Prod.fst).Nodup ∧ ∀ pr ∈ st.emailsBest, RecordInScope allowed pr

/-- Sample HTML response used by the concrete witnesses. -/
def respW : Resp :=
  { status := 200, finalUrl := "http://a.example.com/", contentType := "text/html",
    title := "Contact", text := "write to Jane@Example.com today",
    mailtoHrefs := [], anchorHrefs := [], pdfText := "" }

/-- The same response with status 204. -/
def resp204 : Resp := { respW with status := 204 }

/-- Sample oracle used by the concrete witnesses. -/
def oracleW : Oracle :=
  { robotsOutcome := fun _ => RobotsReadOutcome.httpErr 404,
    fetch := fun _ => some respW,
    urljoin := fun _ h => h,
    emailMatches := fun _ => ["Jane@Example.com"],
    phoneMatches := fun _ => [],
    nowIso := fun n => "2026-10-12T00:00:00Z+" ++ toString n }

/-- Sample configuration used by the concrete witnesses. -/
def cfgW : Config :=
  { domains := ["Example.com"], maxPages := 10, depth := 1, includePdfs := false,
    includePhones := false, honorRobots := false, externalFollow := false,
    userAgent := "UA", pdfOk := false }

/-- A state whose only queued URL is already visited. -/
def stSeenW : CrawlState :=
  { emptyState with queue := [("http://a.example.com/", 0)], seen := ["http://a.example.com/"] }

/-- First stored email entry of the witness crawl. -/
def emailEntryW : String × Record :=
  ((crawlRun cfgW oracleW 2 (initState ["http://a.example.com/"])).emailsBest).headD
    ("", noHitsRecord "")

/-- Data of a constructed string is the underlying character list. -/
@[simp] theorem data_mkString (l : List Char) : (String.mk l).data = l := rfl

/-- Value of Char.ofNat at a valid code. -/
theorem toNat_ofNat_valid (n : Nat) (h : Nat.isValidChar n) : (Char.ofNat n).toNat = n := by
  unfold Char.ofNat
  rw [dif_pos h]
  rfl

/-- Code of a lowered uppercase letter. -/
theorem lowerChar_toNat (c : Char) (h : 65 ≤ c.toNat ∧ c.toNat ≤ 90) :
    (lowerChar c).toNat = c.toNat + 32 := by
  unfold lowerChar
  rw [if_pos h]
  exact toNat_ofNat_valid _ (Or.inl (by omega))

/-- Lowering fixes every character outside the uppercase range. -/
theorem lowerChar_eq_self (c : Char) (h : ¬(65 ≤ c.toNat ∧ c.toNat ≤ 90)) :
    lowerChar c = c := by
  unfold lowerChar
  rw [if_neg h]

/-- Lowering one character is idempotent. -/
theorem lowerChar_idem (c : Char) : lowerChar (lowerChar c) = lowerChar c := by
  by_cases h : 65 ≤ c.toNat ∧ c.toNat ≤ 90
  · have ht := lowerChar_toNat c h
    exact lowerChar_eq_self _ (by omega)
  · rw [lowerChar_eq_self c h]
    exact lowerChar_eq_self c h

/-- Lowering a whole string is idempotent. -/
theorem lowerS_idem (s : String) : lowerS (lowerS s) = lowerS s := by
  apply String.ext
  simp only [lowerS, data_mkString, List.map_map]
  exact List.map_congr_left (fun c _ => lowerChar_idem c)

/-- Lowering does not change membership in the punctuation class. -/
theorem isPunct_lowerChar (c : Char) : isPunct (lowerChar c) = isPunct c := by
  by_cases h : 65 ≤ c.toNat ∧ c.toNat ≤ 90
  · have ht := lowerChar_toNat c h
    have h1 : isPunct (lowerChar c) = false := by
      simp only [isPunct, ht, Bool.or_eq_false_iff, beq_eq_false_iff_ne]
      omega
    have h2 : isPunct c = false := by
      simp only [isPunct, Bool.or_eq_false_iff, beq_eq_false_iff_ne]
      omega
    rw [h1, h2]
  · rw [lowerChar_eq_self c h]

/-- Lowering does not change membership in the whitespace class. -/
theorem isPySpace_lowerChar (c : Char) : isPySpace (lowerChar c) = isPySpace c := by
  by_cases h : 65 ≤ c.toNat ∧ c.toNat ≤ 90
  · have ht := lowerChar_toNat c h
    have h1 : isPySpace (lowerChar c) = false := by
      simp only [isPySpace, ht, Bool.or_eq_false_iff, beq_eq_false_iff_ne]
      omega
    have h2 : isPySpace c = false := by
      simp only [isPySpace, Bool.or_eq_false_iff, beq_eq_false_iff_ne]
      omega
    rw [h1, h2]
  · rw [lowerChar_eq_self c h]

/-- Lowering maps a character to the at sign only if it already is one. -/
theorem lowerChar_eq_at_iff (c : Char) : lowerChar c = '@' ↔ c = '@' := by
  constructor
  · intro h
    by_cases hc : 65 ≤ c.toNat ∧ c.toNat ≤ 90
    · have ht := lowerChar_toNat c hc
      rw [h] at ht
      have h64 : ('@' : Char).toNat = 64 := by decide
      omega
    · rwa [lowerChar_eq_self c hc] at h
  · intro h
    subst h
    decide

/-- A dropWhile over a list in which the predicate never holds is the
identity. -/
theorem dropWhile_all_false {p : Char → Bool} : ∀ {l : List Char},
    (∀ c ∈ l, p c = false) → l.dropWhile p = l := by
  intro l h
  induction l with
  | nil => rfl
  | cons c cs ih =>
      rw [List.dropWhile_cons, if_neg]
      simp [h c (by simp)]

/-- Stripping a list in which the predicate never holds is the identity. -/
theorem stripList_all_false {p : Char → Bool} {l : List Char}
    (h : ∀ c ∈ l, p c = false) : stripList p l = l := by
  unfold stripList
  rw [dropWhile_all_false h, dropWhile_all_false (by intro c hc; exact h c (List.mem_reverse.mp hc)),
    List.reverse_reverse]

/-- Applying dropWhile twice equals applying it once. -/
theorem dropWhile_dropWhile (p : Char → Bool) (l : List Char) :
    (l.dropWhile p).dropWhile p = l.dropWhile p := by
  induction l with
  | nil => rfl
  | cons c cs ih =>
      rw [List.dropWhile_cons]
      by_cases hc : p c = true
      · rw [if_pos hc, ih]
      · rw [if_neg hc, List.dropWhile_cons, if_neg hc]

/-- The head of a dropWhile result fails the predicate. -/
theorem dropWhile_head_false (p : Char → Bool) : ∀ (l : List Char) (c : Char) (cs : List Char),
    l.dropWhile p = c :: cs → p c = false := by
  intro l
  induction l with
  | nil => intro c cs h; simp at h
  | cons a t ih =>
      intro c cs h
      rw [List.dropWhile_cons] at h
      by_cases ha : p a = true
      · rw [if_pos ha] at h; exact ih c cs h
      · rw [if_neg ha] at h
        cases h
        simpa using ha

/-- A nonempty dropWhile result keeps the last element of the input. -/
theorem dropWhile_getLast? (p : Char → Bool) : ∀ (l : List Char),
    l.dropWhile p ≠ [] → (l.dropWhile p).getLast? = l.getLast? := by
  intro l
  induction l with
  | nil => intro h; simp at h
  | cons c cs ih =>
      intro h
      rw [List.dropWhile_cons] at h ⊢
      by_cases hc : p c = true
      · rw [if_pos hc] at h ⊢
        have hcs : cs ≠ [] := by
          intro hnil
          rw [hnil] at h
          simp at h
        rw [ih h]
        cases cs with
        | nil => exact absurd rfl hcs
        | cons d ds => rw [List.getLast?_cons_cons]
      · rw [if_neg hc]

/-- Dropping from the front of a stripped list changes nothing. -/
theorem dropWhile_stripList (p : Char → Bool) (l : List Char) :
    (stripList p l).dropWhile p = stripList p l := by
  cases hm : stripList p l with
  | nil => rfl
  | cons f fs =>
      have hchain : (stripList p l).head? = some f := by rw [hm]; rfl
      have hv : stripList p l = ((l.dropWhile p).reverse.dropWhile p).reverse := rfl
      have hvne : (l.dropWhile p).reverse.dropWhile p ≠ [] := by
        intro hnil
        rw [hv, hnil] at hm
        simp at hm
      have hgl : ((l.dropWhile p).reverse.dropWhile p).getLast? = (l.dropWhile p).reverse.getLast? :=
        dropWhile_getLast? p _ hvne
      have hheads : (l.dropWhile p).head? = some f := by
        rw [← List.getLast?_reverse, ← hgl, ← List.head?_reverse, ← hv, hchain]
      have hpf : p f = false := by
        cases hu : l.dropWhile p with
        | nil => rw [hu] at hheads; simp at hheads
        | cons e es =>
            rw [hu, List.head?_cons] at hheads
            have hef : e = f := Option.some.inj hheads
            subst hef
            exact dropWhile_head_false p l e es hu
      have hnf : ¬(p f = true) := by simp [hpf]
      rw [List.dropWhile_cons, if_neg hnf]

/-- Stripping both ends twice equals stripping once. -/
theorem stripList_idem (p : Char → Bool) (l : List Char) :
    stripList p (stripList p l) = stripList p l := by
  show (((stripList p l).dropWhile p).reverse.dropWhile p).reverse = stripList p l
  rw [dropWhile_stripList]
  show ((((l.dropWhile p).reverse.dropWhile p).reverse).reverse.dropWhile p).reverse = stripList p l
  rw [List.reverse_reverse, dropWhile_dropWhile]
  rfl

/-- Stripping commutes with a character map that preserves the predicate. -/
theorem stripList_map (p : Char → Bool) (f : Char → Char)
    (hp : ∀ c, p (f c) = p c) (l : List Char) :
    stripList p (l.map f) = (stripList p l).map f := by
  have hfp : (p ∘ f) = p := funext hp
  unfold stripList
  rw [List.dropWhile_map, hfp, ← List.map_reverse, List.dropWhile_map, hfp, ← List.map_reverse]

/-- Members of a stripped list are members of the original list. -/
theorem mem_stripList {p : Char → Bool} {l : List Char} {c : Char}
    (h : c ∈ stripList p l) : c ∈ l := by
  unfold stripList at h
  rw [List.mem_reverse] at h
  have h1 := (List.dropWhile_sublist (l := (l.dropWhile p).reverse) (p := p)).mem h
  rw [List.mem_reverse] at h1
  exact (List.dropWhile_sublist (l := l) (p := p)).mem h1

/-- Normalization is idempotent on any string with no whitespace
character. -/
theorem normalize_idem_of_no_space (x : String)
    (h : ∀ c ∈ x.data, isPySpace c = false) :
    normalize_email (normalize_email x) = normalize_email x := by
  unfold normalize_email pyStripWs pyStripPunct lowerS
  apply String.ext
  simp only [data_mkString]
  rw [stripList_all_false h]
  have hz : ∀ c ∈ stripList isPunct x.data, isPySpace c = false :=
    fun c hc => h c (mem_stripList hc)
  have hzl : ∀ c ∈ (stripList isPunct x.data).map lowerChar, isPySpace c = false := by
    intro c hc
    rcases List.mem_map.mp hc with ⟨d, hd, rfl⟩
    rw [isPySpace_lowerChar]
    exact hz d hd
  rw [stripList_all_false hzl, stripList_map isPunct lowerChar isPunct_lowerChar,
    stripList_idem, List.map_map]
  exact List.map_congr_left (fun c _ => lowerChar_idem c)

/-- Splitting at the first separator reconstructs the list. -/
theorem splitFirstList_eq (sep : Char) : ∀ (l a b : List Char),
    splitFirstList sep l = some (a, b) → l = a ++ sep :: b := by
  intro l
  induction l with
  | nil => intro a b h; simp [splitFirstList] at h
  | cons c cs ih =>
      intro a b h
      unfold splitFirstList at h
      by_cases hc : c = sep
      · rw [if_pos hc] at h
        cases h
        simp [hc]
      · rw [if_neg hc] at h
        cases hsp : splitFirstList sep cs with
        | none => rw [hsp] at h; simp at h
        | some pr =>
            rw [hsp] at h
            have h2 : (c :: pr.1, pr.2) = (a, b) := by simpa using h
            injection h2 with ha hb
            subst ha
            subst hb
            have hrec := ih pr.1 pr.2 (by rw [hsp])
            simp [hrec]

/-- Local-part characters are not whitespace. -/
theorem isLocalChar_not_space (c : Char) (h : isLocalChar c = true) : isPySpace c = false := by
  simp only [isLocalChar, isAlphaA, isUpperA, isLowerA, isDigitA, Bool.or_eq_true,
    Bool.and_eq_true, decide_eq_true_eq, beq_iff_eq] at h
  simp only [isPySpace, Bool.or_eq_false_iff, beq_eq_false_iff_ne]
  omega

/-- Domain-part characters are not whitespace. -/
theorem isDomainChar_not_space (c : Char) (h : isDomainChar c = true) : isPySpace c = false := by
  simp only [isDomainChar, isAlphaA, isUpperA, isLowerA, isDigitA, Bool.or_eq_true,
    Bool.and_eq_true, decide_eq_true_eq, beq_iff_eq] at h
  simp only [isPySpace, Bool.or_eq_false_iff, beq_eq_false_iff_ne]
  omega

/-- A full EMAIL_RE match contains no whitespace character. -/
theorem emailCandidate_no_space (s : String) (hs : isEmailCandidate s = true) :
    ∀ c ∈ s.data, isPySpace c = false := by
  unfold isEmailCandidate at hs
  cases hsp : splitFirstList '@' s.data with
  | none => rw [hsp] at hs; simp at hs
  | some pr =>
      rw [hsp] at hs
      obtain ⟨loc, dm⟩ := pr
      simp only [Bool.and_eq_true] at hs
      have hloc : loc.all isLocalChar = true := hs.1.1.2
      have hdm : dm.all isDomainChar = true := hs.1.2
      have hdecomp := splitFirstList_eq '@' s.data loc dm hsp
      intro c hc
      rw [hdecomp] at hc
      rcases List.mem_append.mp hc with hcl | hcr
      · exact isLocalChar_not_space c (List.all_eq_true.mp hloc c hcl)
      · rcases List.mem_cons.mp hcr with rfl | hcd
        · decide
        · exact isDomainChar_not_space c (List.all_eq_true.mp hdm c hcd)

/-- Membership in the extract_emails fold: an element is in the result iff it
was already a hit or it is the normalization of a candidate that passes the
allowed-domain filter. -/
theorem mem_emailFold (allowed : List String) : ∀ (l acc : List String) (e : String),
    e ∈ l.foldl (emailStep allowed) acc ↔
      e ∈ acc ∨ ∃ c ∈ l, e = normalize_email c ∧
        email_matches_allowed (normalize_email c) allowed = true := by
  intro l
  induction l with
  | nil => intro acc e; simp
  | cons c cs ih =>
      intro acc e
      rw [List.foldl_cons, ih]
      have hstep : e ∈ emailStep allowed acc c ↔
          e ∈ acc ∨ (e = normalize_email c ∧
            email_matches_allowed (normalize_email c) allowed = true) := by
        unfold emailStep
        by_cases hm : email_matches_allowed (normalize_email c) allowed = true
        · rw [if_pos hm]
          by_cases hcont : acc.contains (normalize_email c) = true
          · rw [if_pos hcont]
            constructor
            · exact Or.inl
            · rintro (h | ⟨rfl, _⟩)
              · exact h
              · exact List.elem_iff.mp hcont
          · rw [if_neg hcont, List.mem_append]
            constructor
            · rintro (h | h)
              · exact Or.inl h
              · rcases List.mem_singleton.mp h with rfl
                exact Or.inr ⟨rfl, hm⟩
            · rintro (h | ⟨rfl, _⟩)
              · exact Or.inl h
              · exact Or.inr (List.mem_singleton.mpr rfl)
        · rw [if_neg hm]
          constructor
          · exact Or.inl
          · rintro (h | ⟨rfl, hm2⟩)
            · exact h
            · exact absurd hm2 hm
      rw [hstep]
      constructor
      · rintro ((h | h) | h)
        · exact Or.inl h
        · exact Or.inr ⟨c, List.mem_cons_self c cs, h⟩
        · rcases h with ⟨d, hd, he⟩
          exact Or.inr ⟨d, List.mem_cons_of_mem c hd, he⟩
      · rintro (h | ⟨d, hd, he⟩)
        · exact Or.inl (Or.inl h)
        · rcases List.mem_cons.mp hd with rfl | hd2
          · exact Or.inl (Or.inr he)
          · exact Or.inr ⟨d, hd2, he⟩

/-- Unfolding of the allowed-domain filter into the claim form: the part after
the first at sign exists and matches some scope suffix case-insensitively. -/
theorem email_matches_allowed_iff (email : String) (allowed : List String)
    (hS : ∀ d ∈ allowed, lowerS d = d) :
    email_matches_allowed email allowed = true ↔
      ∃ dm, afterFirstAt email = some dm ∧
        ∃ d ∈ allowed, lowerS dm = lowerS d ∨
          pyEndsWith (lowerS dm) ("." ++ lowerS d) = true := by
  unfold email_matches_allowed
  cases ha : afterFirstAt email with
  | none => simp
  | some dm =>
      simp only [List.any_eq_true, Bool.or_eq_true, beq_iff_eq]
      constructor
      · rintro ⟨d, hd, h⟩
        refine ⟨dm, rfl, d, hd, ?_⟩
        rwa [hS d hd]
      · rintro ⟨dm2, hdm2, d, hd, h⟩
        have hdd : dm = dm2 := Option.some.inj hdm2
        subst hdd
        refine ⟨d, hd, ?_⟩
        rwa [hS d hd] at h

/-- C1: over any list of regex candidates, extract_emails returns exactly the
set of normalized candidates whose domain after the first at sign equals a
scope suffix or ends with a dot and a scope suffix, compared
case-insensitively against the pre-lowercased scope set; an element with no at
sign after normalization is never kept. -/
theorem extract_emails_exactly_scoped (cands S : List String)
    (hS : ∀ d ∈ S, lowerS d = d) (e : String) :
    (e ∈ extract_emails cands S ↔
      ∃ c ∈ cands, e = normalize_email c ∧
        ∃ dm, afterFirstAt e = some dm ∧
          ∃ d ∈ S, lowerS dm = lowerS d ∨
            pyEndsWith (lowerS dm) ("." ++ lowerS d) = true) ∧
    (e ∈ extract_emails cands S → afterFirstAt e ≠ none) := by
  have hbase : extract_emails cands S = cands.foldl (emailStep S) [] := rfl
  constructor
  · rw [hbase, mem_emailFold]
    constructor
    · rintro (h | ⟨c, hc, rfl, hm⟩)
      · exact absurd h (List.not_mem_nil e)
      · exact ⟨c, hc, rfl, (email_matches_allowed_iff _ S hS).mp hm⟩
    · rintro ⟨c, hc, rfl, hrest⟩
      exact Or.inr ⟨c, hc, rfl, (email_matches_allowed_iff _ S hS).mpr hrest⟩
  · intro h2
    rw [hbase, mem_emailFold] at h2
    rcases h2 with h | ⟨c, hc, rfl, hm⟩
    · exact absurd h (List.not_mem_nil e)
    · rcases (email_matches_allowed_iff _ S hS).mp hm with ⟨dm, hdm, _⟩
      rw [hdm]
      simp

/-- Witness for C1 at a concrete scope set and candidate list. -/
theorem extract_emails_exactly_scoped_witness :
    (∀ d ∈ ["example.com"], lowerS d = d) ∧
    ("info@mail.example.com" ∈
        extract_emails ["Info@mail.Example.COM", "boss@other.org"] ["example.com"] ↔
      ∃ c ∈ ["Info@mail.Example.COM", "boss@other.org"],
        "info@mail.example.com" = normalize_email c ∧
          ∃ dm, afterFirstAt "info@mail.example.com" = some dm ∧
            ∃ d ∈ ["example.com"], lowerS dm = lowerS d ∨
              pyEndsWith (lowerS dm) ("." ++ lowerS d) = true) :=
  ⟨by decide,
    (extract_emails_exactly_scoped ["Info@mail.Example.COM", "boss@other.org"]
      ["example.com"] (by decide) "info@mail.example.com").1⟩

/-- C9: normalization is idempotent on every string matched by the email
candidate pattern. -/
theorem normalize_email_idem_on_candidates (x : String)
    (hx : isEmailCandidate x = true) :
    normalize_email (normalize_email x) = normalize_email x :=
  normalize_idem_of_no_space x (emailCandidate_no_space x hx)

/-- Witness for C9 at a concrete matched candidate. -/
theorem normalize_email_idem_on_candidates_witness :
    isEmailCandidate "Jane.Doe@Example.COM" = true ∧
    normalize_email (normalize_email "Jane.Doe@Example.COM") =
      normalize_email "Jane.Doe@Example.COM" :=
  ⟨by decide, normalize_email_idem_on_candidates "Jane.Doe@Example.COM" (by decide)⟩

/-- C3 on the code (code bug): when the robots read raises, load_robots caches
the fresh never-read parser and rfp_can_fetch on a never-read parser denies
every request, so the politeness gate returns false for every URL on that
origin although the spec and the verbose message in the code promise
default-allow. -/
theorem robots_load_failure_denies :
    (urlparse_m "http://x.com/a").scheme = "http" ∧
    (urlparse_m "http://x.com/a").netloc = "x.com" ∧
    (can_fetch (fun _ => RobotsReadOutcome.raised) [] "http://x.com/a" "TestUA" true).1
      = false ∧
    (can_fetch (fun _ => RobotsReadOutcome.raised) [] "http://x.com/b" "TestUA" true).1
      = false :=
  ⟨by decide, by decide, rfl, rfl⟩

/-- C4 counterexample: the code applies the scope test to the netloc, not to
the hostname, so an in-scope host carrying an explicit port is rejected even
though the stated claim predicts it is enqueued. -/
theorem link_filter_host_claim_false :
    ¬ (∀ (links seen S : List String) (l : String),
        l ∈ filter_links links seen false S ↔
          (l ∈ links ∧ ¬(l ∈ seen) ∧
            ((urlparse_m l).scheme = "http" ∨ (urlparse_m l).scheme = "https") ∧
            ∃ hn, hostname_m (urlparse_m l).netloc = some hn ∧
              ∃ d ∈ S, lowerS hn = lowerS d ∨
                pyEndsWith (lowerS hn) ("." ++ lowerS d) = true)) := by
  intro hclaim
  have h := (hclaim ["http://example.com:8080/x"] [] ["example.com"]
    "http://example.com:8080/x").mpr
  have hmem : "http://example.com:8080/x" ∈
      filter_links ["http://example.com:8080/x"] [] false ["example.com"] := by
    apply h
    refine ⟨by decide, by decide, Or.inl (by decide),
      "example.com", by decide, "example.com", by decide, Or.inl (by decide)⟩
  exact absurd hmem (by decide)

/-- C4 amended: with external follow disabled, a link is enqueued iff it is in
the produced links, not already seen, has an http or https scheme, and its
netloc (not its hostname) passes domain_allowed. -/
theorem link_filter_enqueue_iff (links seen S : List String) (l : String) :
    l ∈ filter_links links seen false S ↔
      (l ∈ links ∧ seen.contains l = false ∧
        ((urlparse_m l).scheme == "http" || (urlparse_m l).scheme == "https") = true ∧
        domain_allowed (urlparse_m l).netloc S = true) := by
  unfold filter_links
  rw [List.mem_filter]
  constructor
  · rintro ⟨hl, hp⟩
    cases hcont : seen.contains l with
    | true =>
        rw [if_pos hcont] at hp
        exact absurd hp (by simp)
    | false =>
        have hcont2 : ¬(seen.contains l = true) := by rw [hcont]; simp
        rw [if_neg hcont2] at hp
        cases hsc : ((urlparse_m l).scheme == "http" || (urlparse_m l).scheme == "https") with
        | false =>
            have h2 : (!((urlparse_m l).scheme == "http" ||
                (urlparse_m l).scheme == "https")) = true := by
              rw [hsc]; rfl
            rw [if_pos h2] at hp
            exact absurd hp (by simp)
        | true =>
            have h2 : ¬((!((urlparse_m l).scheme == "http" ||
                (urlparse_m l).scheme == "https")) = true) := by
              rw [hsc]; simp
            rw [if_neg h2] at hp
            exact ⟨hl, rfl, rfl, by simpa using hp⟩
  · rintro ⟨hl, hs, hsc, hd⟩
    refine ⟨hl, ?_⟩
    have h1 : ¬(seen.contains l = true) := by rw [hs]; simp
    have h2 : ¬((!((urlparse_m l).scheme == "http" ||
        (urlparse_m l).scheme == "https")) = true) := by
      rw [hsc]; simp
    rw [if_neg h1, if_neg h2]
    simpa using hd

/-- A predicate preserved by every fold step is preserved by the fold. -/
theorem foldlPreserve {σ : Type u_1} {α : Type u_2} (P : σ → Prop) (f : σ → α → σ)
    (hf : ∀ s a, P s → P (f s a)) : ∀ (l : List α) (s : σ), P s → P (l.foldl f s) := by
  intro l
  induction l with
  | nil => intro s hs; exact hs
  | cons a t ih => intro s hs; exact ih (f s a) (hf s a hs)

/-- A predicate preserved by every fold step over members of the list is
preserved by the fold. -/
theorem foldlPreserveMem {σ : Type u_1} {α : Type u_2} (P : σ → Prop) :
    ∀ (l : List α) (f : σ → α → σ), (∀ s a, a ∈ l → P s → P (f s a)) →
      ∀ s, P s → P (l.foldl f s) := by
  intro l
  induction l with
  | nil => intro f hf s hs; exact hs
  | cons a t ih =>
      intro f hf s hs
      exact ih f (fun s b hb hps => hf s b (List.mem_cons_of_mem a hb) hps) (f s a)
        (hf s a (List.mem_cons_self a t) hs)

/-- Bool contains on a list agrees with membership. -/
theorem contains_iff_mem (l : List String) (x : String) : l.contains x = true ↔ x ∈ l :=
  List.elem_iff

/-- The email recording loop changes only the tick and the email map. -/
theorem recordEmails_spec (o : Oracle) (allowed : List String) (u t x : String) :
    ∀ st : CrawlState,
      (recordEmails o allowed u t x st).queue = st.queue ∧
      (recordEmails o allowed u t x st).seen = st.seen ∧
      (recordEmails o allowed u t x st).robotsCache = st.robotsCache ∧
      (recordEmails o allowed u t x st).pages = st.pages ∧
      (recordEmails o allowed u t x st).fetchLog = st.fetchLog ∧
      (recordEmails o allowed u t x st).enqLog = st.enqLog ∧
      (recordEmails o allowed u t x st).results = st.results := by
  unfold recordEmails
  generalize extract_emails (o.emailMatches x) allowed = l
  induction l with
  | nil => intro st; exact ⟨rfl, rfl, rfl, rfl, rfl, rfl, rfl⟩
  | cons e t2 ih =>
      intro st
      rw [List.foldl_cons]
      exact ih _

/-- The phone recording loop changes only the tick and the results list. -/
theorem recordPhones_spec (o : Oracle) (u t x : String) :
    ∀ st : CrawlState,
      (recordPhones o u t x st).queue = st.queue ∧
      (recordPhones o u t x st).seen = st.seen ∧
      (recordPhones o u t x st).robotsCache = st.robotsCache ∧
      (recordPhones o u t x st).pages = st.pages ∧
      (recordPhones o u t x st).fetchLog = st.fetchLog ∧
      (recordPhones o u t x st).enqLog = st.enqLog ∧
      (recordPhones o u t x st).emailsBest = st.emailsBest := by
  unfold recordPhones
  generalize extract_phones (o.phoneMatches x) = l
  induction l with
  | nil => intro st; exact ⟨rfl, rfl, rfl, rfl, rfl, rfl, rfl⟩
  | cons e t2 ih =>
      intro st
      rw [List.foldl_cons]
      exact ih _

/-- Projection of recordEmails at queue. -/
@[simp] theorem recordEmails_queue (o : Oracle) (allowed : List String) (u t x : String)
    (st : CrawlState) : (recordEmails o allowed u t x st).queue = st.queue :=
  (recordEmails_spec o allowed u t x st).1

/-- Projection of recordEmails at seen. -/
@[simp] theorem recordEmails_seen (o : Oracle) (allowed : List String) (u t x : String)
    (st : CrawlState) : (recordEmails o allowed u t x st).seen = st.seen :=
  (recordEmails_spec o allowed u t x st).2.1

/-- Projection of recordEmails at robotsCache. -/
@[simp] theorem recordEmails_robotsCache (o : Oracle) (allowed : List String) (u t x : String)
    (st : CrawlState) : (recordEmails o allowed u t x st).robotsCache = st.robotsCache :=
  (recordEmails_spec o allowed u t x st).2.2.1

/-- Projection of recordEmails at pages. -/
@[simp] theorem recordEmails_pages (o : Oracle) (allowed : List String) (u t x : String)
    (st : CrawlState) : (recordEmails o allowed u t x st).pages = st.pages :=
  (recordEmails_spec o allowed u t x st).2.2.2.1

/-- Projection of recordEmails at fetchLog. -/
@[simp] theorem recordEmails_fetchLog (o : Oracle) (allowed : List String) (u t x : String)
    (st : CrawlState) : (recordEmails o allowed u t x st).fetchLog = st.fetchLog :=
  (recordEmails_spec o allowed u t x st).2.2.2.2.1

/-- Projection of recordEmails at enqLog. -/
@[simp] theorem recordEmails_enqLog (o : Oracle) (allowed : List String) (u t x : String)
    (st : CrawlState) : (recordEmails o allowed u t x st).enqLog = st.enqLog :=
  (recordEmails_spec o allowed u t x st).2.2.2.2.2.1

/-- Projection of recordEmails at results. -/
@[simp] theorem recordEmails_results (o : Oracle) (allowed : List String) (u t x : String)
    (st : CrawlState) : (recordEmails o allowed u t x st).results = st.results :=
  (recordEmails_spec o allowed u t x st).2.2.2.2.2.2

/-- Projection of recordPhones at queue. -/
@[simp] theorem recordPhones_queue (o : Oracle) (u t x : String)
    (st : CrawlState) : (recordPhones o u t x st).queue = st.queue :=
  (recordPhones_spec o u t x st).1

/-- Projection of recordPhones at seen. -/
@[simp] theorem recordPhones_seen (o : Oracle) (u t x : String)
    (st : CrawlState) : (recordPhones o u t x st).seen = st.seen :=
  (recordPhones_spec o u t x st).2.1

/-- Projection of recordPhones at robotsCache. -/
@[simp] theorem recordPhones_robotsCache (o : Oracle) (u t x : String)
    (st : CrawlState) : (recordPhones o u t x st).robotsCache = st.robotsCache :=
  (recordPhones_spec o u t x st).2.2.1

/-- Projection of recordPhones at pages. -/
@[simp] theorem recordPhones_pages (o : Oracle) (u t x : String)
    (st : CrawlState) : (recordPhones o u t x st).pages = st.pages :=
  (recordPhones_spec o u t x st).2.2.2.1

/-- Projection of recordPhones at fetchLog. -/
@[simp] theorem recordPhones_fetchLog (o : Oracle) (u t x : String)
    (st : CrawlState) : (recordPhones o u t x st).fetchLog = st.fetchLog :=
  (recordPhones_spec o u t x st).2.2.2.2.1

/-- Projection of recordPhones at enqLog. -/
@[simp] theorem recordPhones_enqLog (o : Oracle) (u t x : String)
    (st : CrawlState) : (recordPhones o u t x st).enqLog = st.enqLog :=
  (recordPhones_spec o u t x st).2.2.2.2.2.1

/-- Projection of recordPhones at emailsBest. -/
@[simp] theorem recordPhones_emailsBest (o : Oracle) (u t x : String)
    (st : CrawlState) : (recordPhones o u t x st).emailsBest = st.emailsBest :=
  (recordPhones_spec o u t x st).2.2.2.2.2.2

/-- Projections of processPage: seen robots and fetch log are untouched, the
page counter increments, and queue and enqueue log grow by exactly the
accepted links at the next depth. -/
theorem processPage_spec (cfg : Config) (o : Oracle) (st : CrawlState) (depth : Int)
    (u t x : String) (links : List String) :
    (processPage cfg o st depth u t x links).seen = st.seen ∧
    (processPage cfg o st depth u t x links).robotsCache = st.robotsCache ∧
    (processPage cfg o st depth u t x links).fetchLog = st.fetchLog ∧
    (processPage cfg o st depth u t x links).pages = st.pages + 1 ∧
    (processPage cfg o st depth u t x links).queue =
      st.queue ++ ((if depth < cfg.depth then
        filter_links links st.seen cfg.externalFollow (mkAllowed cfg.domains)
        else []).map (fun l => (l, depth + 1))) ∧
    (processPage cfg o st depth u t x links).enqLog =
      st.enqLog ++ ((if depth < cfg.depth then
        filter_links links st.seen cfg.externalFollow (mkAllowed cfg.domains)
        else []).map (fun l => (l, depth + 1))) := by
  unfold processPage
  by_cases hp : cfg.includePhones = true
  · rw [if_pos hp]
    refine ⟨?_, ?_, ?_, ?_, ?_, ?_⟩ <;> simp
  · rw [if_neg hp]
    refine ⟨?_, ?_, ?_, ?_, ?_, ?_⟩ <;> simp

/-- Projections of afterStatus: seen robots and fetch log are untouched, and
every queue or enqueue log entry is an old one or carries depth plus one under
the depth guard. -/
theorem afterStatus_spec (cfg : Config) (o : Oracle) (st : CrawlState) (depth : Int)
    (resp : Resp) :
    (afterStatus cfg o st depth resp).seen = st.seen ∧
    (afterStatus cfg o st depth resp).robotsCache = st.robotsCache ∧
    (afterStatus cfg o st depth resp).fetchLog = st.fetchLog ∧
    (∀ it ∈ (afterStatus cfg o st depth resp).queue,
      it ∈ st.queue ∨ (depth < cfg.depth ∧ it.2 = depth + 1)) ∧
    (∀ it ∈ (afterStatus cfg o st depth resp).enqLog,
      it ∈ st.enqLog ∨ (depth < cfg.depth ∧ it.2 = depth + 1)) := by
  have hpage : ∀ (u t x : String) (links : List String),
      (processPage cfg o st depth u t x links).seen = st.seen ∧
      (processPage cfg o st depth u t x links).robotsCache = st.robotsCache ∧
      (processPage cfg o st depth u t x links).fetchLog = st.fetchLog ∧
      (∀ it ∈ (processPage cfg o st depth u t x links).queue,
        it ∈ st.queue ∨ (depth < cfg.depth ∧ it.2 = depth + 1)) ∧
      (∀ it ∈ (processPage cfg o st depth u t x links).enqLog,
        it ∈ st.enqLog ∨ (depth < cfg.depth ∧ it.2 = depth + 1)) := by
    intro u t x links
    obtain ⟨s1, s2, s3, _, s5, s6⟩ := processPage_spec cfg o st depth u t x links
    refine ⟨s1, s2, s3, ?_, ?_⟩
    · intro it hit
      rw [s5] at hit
      rcases List.mem_append.mp hit with h | h
      · exact Or.inl h
      · by_cases hd : depth < cfg.depth
        · rw [if_pos hd] at h
          rcases List.mem_map.mp h with ⟨l, _, rfl⟩
          exact Or.inr ⟨hd, rfl⟩
        · rw [if_neg hd] at h
          simp at h
    · intro it hit
      rw [s6] at hit
      rcases List.mem_append.mp hit with h | h
      · exact Or.inl h
      · by_cases hd : depth < cfg.depth
        · rw [if_pos hd] at h
          rcases List.mem_map.mp h with ⟨l, _, rfl⟩
          exact Or.inr ⟨hd, rfl⟩
        · rw [if_neg hd] at h
          simp at h
  unfold afterStatus
  by_cases h1 : is_content_html (lowerS resp.contentType) = true
  · rw [if_pos h1]
    exact hpage _ _ _ _
  · rw [if_neg h1]
    by_cases h2 : (cfg.includePdfs && is_content_pdf (lowerS resp.contentType)) = true
    · rw [if_pos h2]
      exact hpage _ _ _ _
    · rw [if_neg h2]
      exact ⟨rfl, rfl, rfl, fun it hit => Or.inl hit, fun it hit => Or.inl hit⟩

/-- Projections of processResp, inheriting the afterStatus behaviour. -/
theorem processResp_spec (cfg : Config) (o : Oracle) (st : CrawlState) (depth : Int)
    (resp : Resp) :
    (processResp cfg o st depth resp).seen = st.seen ∧
    (processResp cfg o st depth resp).robotsCache = st.robotsCache ∧
    (processResp cfg o st depth resp).fetchLog = st.fetchLog ∧
    (∀ it ∈ (processResp cfg o st depth resp).queue,
      it ∈ st.queue ∨ (depth < cfg.depth ∧ it.2 = depth + 1)) ∧
    (∀ it ∈ (processResp cfg o st depth resp).enqLog,
      it ∈ st.enqLog ∨ (depth < cfg.depth ∧ it.2 = depth + 1)) := by
  unfold processResp
  by_cases hs : resp.status ≠ 200
  · rw [if_pos hs]
    exact ⟨rfl, rfl, rfl, fun it hit => Or.inl hit, fun it hit => Or.inl hit⟩
  · rw [if_neg hs]
    exact afterStatus_spec cfg o st depth resp

/-- Splitting at the at sign commutes with lowering. -/
theorem splitFirst_map_lower (l : List Char) :
    splitFirstList '@' (l.map lowerChar) =
      (splitFirstList '@' l).map (fun pr => (pr.1.map lowerChar, pr.2.map lowerChar)) := by
  induction l with
  | nil => rfl
  | cons c cs ih =>
      rw [List.map_cons]
      unfold splitFirstList
      by_cases hc : c = '@'
      · rw [if_pos ((lowerChar_eq_at_iff c).mpr hc), if_pos hc]
        rfl
      · rw [if_neg (fun hl => hc ((lowerChar_eq_at_iff c).mp hl)), if_neg hc, ih]
        cases splitFirstList '@' cs <;> rfl

/-- The part after the first at sign of a lowered string is the lowered part
after the first at sign. -/
theorem afterFirstAt_lowerS (s : String) :
    afterFirstAt (lowerS s) = (afterFirstAt s).map lowerS := by
  unfold afterFirstAt lowerS
  rw [data_mkString, splitFirst_map_lower]
  cases splitFirstList '@' s.data <;> rfl

/-- On a string that is its own lowercase image, the part after the first at
sign is its own lowercase image too. -/
theorem lowered_afterFirstAt (email dm : String) (hl : email = lowerS email)
    (ha : afterFirstAt email = some dm) : dm = lowerS dm := by
  have h2 := afterFirstAt_lowerS email
  rw [← hl, ha] at h2
  simpa using h2

/-- Every value produced by extract_emails is its own lowercase image and
passes the allowed-domain filter. -/
theorem extract_emails_value (cands allowed : List String) (e : String)
    (h : e ∈ extract_emails cands allowed) :
    e = lowerS e ∧ email_matches_allowed e allowed = true := by
  have hm := (mem_emailFold allowed cands [] e).mp h
  rcases hm with h1 | ⟨c, _, rfl, hma⟩
  · exact absurd h1 (List.not_mem_nil e)
  · refine ⟨?_, hma⟩
    unfold normalize_email
    exact (lowerS_idem _).symm

/-- Decomposition of a successful allowed-domain filter check. -/
theorem email_matches_allowed_parts (email : String) (allowed : List String)
    (h : email_matches_allowed email allowed = true) :
    ∃ dm, afterFirstAt email = some dm ∧
      ∃ d ∈ allowed, lowerS dm = d ∨ pyEndsWith (lowerS dm) ("." ++ d) = true := by
  unfold email_matches_allowed at h
  cases ha : afterFirstAt email with
  | none => rw [ha] at h; simp at h
  | some dm =>
      rw [ha] at h
      rcases List.any_eq_true.mp h with ⟨d, hd, hcond⟩
      have hcond2 : lowerS dm = d ∨ pyEndsWith (lowerS dm) ("." ++ d) = true := by
        simpa using hcond
      exact ⟨dm, rfl, d, hd, hcond2⟩

/-- Members of a record_email result are old members or the new entry. -/
theorem mem_record_email (m : List (String × Record)) (e : String) (r : Record)
    (pr : String × Record) (h : pr ∈ record_email m e r) : pr ∈ m ∨ pr = (e, r) := by
  unfold record_email at h
  by_cases hc : m.any (fun q => q.1 == e) = true
  · rw [if_pos hc] at h
    exact Or.inl h
  · rw [if_neg hc] at h
    rcases List.mem_append.mp h with h1 | h1
    · exact Or.inl h1
    · exact Or.inr (List.mem_singleton.mp h1)

/-- record_email keeps the keys duplicate free. -/
theorem record_email_nodup (m : List (String × Record)) (e : String) (r : Record)
    (h : (m.map Prod.fst).Nodup) : ((record_email m e r).map Prod.fst).Nodup := by
  unfold record_email
  by_cases hc : m.any (fun q => q.1 == e) = true
  · rw [if_pos hc]
    exact h
  · rw [if_neg hc]
    rw [List.map_append]
    refine List.Nodup.append h (by simp) ?_
    intro a ha hb
    have hae : a = e := by simpa using hb
    subst hae
    rcases List.mem_map.mp ha with ⟨q, hq, hqa⟩
    have : (fun q : String × Record => q.1 == a) q = true := by
      simp [hqa]
    exact hc (List.any_eq_true.mpr ⟨q, hq, this⟩)

/-- find? distributes over append. -/
theorem find?_append {α : Type u_1} (p : α → Bool) : ∀ (l1 l2 : List α),
    List.find? p (l1 ++ l2) =
      match List.find? p l1 with
      | some x => some x
      | none => List.find? p l2 := by
  intro l1
  induction l1 with
  | nil => intro l2; rfl
  | cons a t ih =>
      intro l2
      rw [List.cons_append]
      by_cases hp : p a = true
      · rw [List.find?_cons_of_pos _ hp, List.find?_cons_of_pos _ hp]
      · rw [List.find?_cons_of_neg _ (by simpa using hp),
          List.find?_cons_of_neg _ (by simpa using hp), ih]

/-- Lookup through one record_email insert. -/
theorem lookupA_record_email (m : List (String × Record)) (k e : String) (r : Record) :
    lookupA (record_email m k r) e =
      match lookupA m e with
      | some q => some q
      | none => if k == e then some r else none := by
  unfold record_email
  by_cases hc : m.any (fun q => q.1 == k) = true
  · rw [if_pos hc]
    cases hl : lookupA m e with
    | some q => rfl
    | none =>
        by_cases hke : (k == e) = true
        · have hk : k = e := beq_iff_eq.mp hke
          subst hk
          unfold lookupA at hl
          rcases List.any_eq_true.mp hc with ⟨q, hq, hq2⟩
          have : List.find? (fun pr : String × Record => pr.1 == k) m ≠ none := by
            intro hnone
            have := List.find?_eq_none.mp hnone q hq
            exact this hq2
          cases hfind : List.find? (fun pr : String × Record => pr.1 == k) m with
          | none => exact absurd hfind this
          | some q2 => rw [hfind] at hl; simp at hl
        · rw [if_neg (by simpa using hke)]
  · rw [if_neg hc]
    unfold lookupA
    rw [find?_append]
    cases hl : List.find? (fun pr : String × Record => pr.1 == e) m with
    | some q => rfl
    | none =>
        by_cases hke : (k == e) = true
        · rw [List.find?_cons_of_pos _ (by simpa using hke), if_pos hke]
          rfl
        · rw [List.find?_cons_of_neg _ (by simpa using hke), if_neg (by simpa using hke)]
          rfl

/-- First-seen-wins characterization of the record_email fold: the stored
record under a key is the record of the first event carrying that key. -/
theorem foldRecord_lookup : ∀ (events acc : List (String × Record)) (e : String),
    lookupA (events.foldl (fun m p => record_email m p.1 p.2) acc) e =
      match lookupA acc e with
      | some q => some q
      | none => (events.find? (fun p => p.1 == e)).map Prod.snd := by
  intro events
  induction events with
  | nil =>
      intro acc e
      rw [List.foldl_nil]
      cases lookupA acc e <;> rfl
  | cons kv rest ih =>
      intro acc e
      rw [List.foldl_cons, ih, lookupA_record_email]
      cases hl : lookupA acc e with
      | some q =>
          by_cases hke : (kv.1 == e) = true
          · rw [List.find?_cons_of_pos _ (by simpa using hke)]
          · rw [List.find?_cons_of_neg _ (by simpa using hke)]
      | none =>
          by_cases hke : (kv.1 == e) = true
          · rw [if_pos hke, List.find?_cons_of_pos _ (by simpa using hke)]
            rfl
          · rw [if_neg hke, List.find?_cons_of_neg _ (by simpa using hke)]

/-- Projections of fetchPhase, inheriting the processResp behaviour. -/
theorem fetchPhase_spec (cfg : Config) (o : Oracle) (st : CrawlState) (url0 : String)
    (depth : Int) :
    (fetchPhase cfg o st url0 depth).seen = st.seen ∧
    (fetchPhase cfg o st url0 depth).robotsCache = st.robotsCache ∧
    (fetchPhase cfg o st url0 depth).fetchLog = st.fetchLog ∧
    (∀ it ∈ (fetchPhase cfg o st url0 depth).queue,
      it ∈ st.queue ∨ (depth < cfg.depth ∧ it.2 = depth + 1)) ∧
    (∀ it ∈ (fetchPhase cfg o st url0 depth).enqLog,
      it ∈ st.enqLog ∨ (depth < cfg.depth ∧ it.2 = depth + 1)) := by
  unfold fetchPhase
  cases o.fetch url0 with
  | none => exact ⟨rfl, rfl, rfl, fun it h => Or.inl h, fun it h => Or.inl h⟩
  | some resp => exact processResp_spec cfg o st depth resp

/-- stepItem preserves the fetch log invariant. -/
theorem stepItem_fetchInv (cfg : Config) (o : Oracle) (st : CrawlState) (url0 : String)
    (depth : Int) (h : FetchInv st) : FetchInv (stepItem cfg o st url0 depth) := by
  unfold stepItem
  by_cases hseen : st.seen.contains url0 = true
  · rw [if_pos hseen]
    exact h
  · rw [if_neg hseen]
    have hnotin : url0 ∉ st.seen := fun hmem => hseen ((contains_iff_mem st.seen url0).mpr hmem)
    by_cases hr : (robotsPhase cfg o st.robotsCache url0).1 = true
    · rw [if_pos hr]
      obtain ⟨f1, _, f3, _, _⟩ := fetchPhase_spec cfg o
        { st with seen := st.seen ++ [url0], robotsCache := (robotsPhase cfg o st.robotsCache url0).2, fetchLog := st.fetchLog ++ [(url0, depth)] } url0 depth
      constructor
      · rw [f3]
        show ((st.fetchLog ++ [(url0, depth)]).map Prod.fst).Nodup
        rw [List.map_append]
        refine List.Nodup.append h.1 (by simp) ?_
        intro a ha hb
        have hae : a = url0 := by simpa using hb
        subst hae
        exact hnotin (h.2 a ha)
      · intro u hu
        rw [f3] at hu
        rw [f1]
        show u ∈ st.seen ++ [url0]
        have hu2 : u ∈ (st.fetchLog ++ [(url0, depth)]).map Prod.fst := hu
        rw [List.map_append] at hu2
        rcases List.mem_append.mp hu2 with h1 | h1
        · exact List.mem_append_left _ (h.2 u h1)
        · have : u = url0 := by simpa using h1
          subst this
          exact List.mem_append_right _ (List.mem_singleton.mpr rfl)
    · rw [if_neg hr]
      refine ⟨h.1, ?_⟩
      intro u hu
      exact List.mem_append_left _ (h.2 u hu)

/-- crawlStep preserves the fetch log invariant. -/
theorem crawlStep_fetchInv (cfg : Config) (o : Oracle) (st : CrawlState)
    (h : FetchInv st) : FetchInv (crawlStep cfg o st) := by
  unfold crawlStep
  cases st.queue with
  | nil => exact h
  | cons item tl => exact stepItem_fetchInv cfg o _ item.1 item.2 ⟨h.1, h.2⟩

/-- Any predicate preserved by crawlStep is preserved by the fueled loop. -/
theorem crawlRun_preserve (cfg : Config) (o : Oracle) (P : CrawlState → Prop)
    (hstep : ∀ st, P st → P (crawlStep cfg o st)) :
    ∀ (fuel : Nat) (st : CrawlState), P st → P (crawlRun cfg o fuel st) := by
  intro fuel
  induction fuel with
  | zero => intro st h; exact h
  | succ n ih =>
      intro st h
      unfold crawlRun
      cases st.queue with
      | nil => exact h
      | cons a b =>
          by_cases hb : (st.pages : Int) < cfg.maxPages
          · rw [if_pos hb]
            exact ih _ (hstep st h)
          · rw [if_neg hb]
            exact h

/-- Projections of the initial state: everything empty except the queue and
the enqueue log, whose items all carry depth zero. -/
theorem initState_spec (seeds : List String) :
    (initState seeds).seen = [] ∧ (initState seeds).robotsCache = [] ∧
    (initState seeds).pages = 0 ∧ (initState seeds).fetchLog = [] ∧
    (initState seeds).emailsBest = [] ∧ (initState seeds).results = [] ∧
    (∀ it ∈ (initState seeds).queue, it.2 = 0) ∧
    (∀ it ∈ (initState seeds).enqLog, it.2 = 0) := by
  unfold initState
  refine foldlPreserve
    (fun st : CrawlState => st.seen = [] ∧ st.robotsCache = [] ∧ st.pages = 0 ∧
      st.fetchLog = [] ∧ st.emailsBest = [] ∧ st.results = [] ∧
      (∀ it ∈ st.queue, it.2 = 0) ∧ (∀ it ∈ st.enqLog, it.2 = 0))
    _ ?_ seeds emptyState ⟨rfl, rfl, rfl, rfl, rfl, rfl, by simp [emptyState], by simp [emptyState]⟩
  intro s u hs
  by_cases hu : ((urlparse_m u).scheme == "http" || (urlparse_m u).scheme == "https") = true
  · rw [if_pos hu]
    refine ⟨hs.1, hs.2.1, hs.2.2.1, hs.2.2.2.1, hs.2.2.2.2.1, hs.2.2.2.2.2.1, ?_, ?_⟩
    · intro it hit
      rcases List.mem_append.mp hit with h1 | h1
      · exact hs.2.2.2.2.2.2.1 it h1
      · rcases List.mem_singleton.mp h1 with rfl
        rfl
    · intro it hit
      rcases List.mem_append.mp hit with h1 | h1
      · exact hs.2.2.2.2.2.2.2 it h1
      · rcases List.mem_singleton.mp h1 with rfl
        rfl
  · rw [if_neg hu]
    exact hs

/-- stepItem preserves the depth invariant when the item depth is in
bounds. -/
theorem stepItem_depthInv (cfg : Config) (o : Oracle) (st : CrawlState) (url0 : String)
    (depth : Int) (hdep : depth ≤ cfg.depth) (h : DepthInv cfg.depth st) :
    DepthInv cfg.depth (stepItem cfg o st url0 depth) := by
  unfold stepItem
  by_cases hseen : st.seen.contains url0 = true
  · rw [if_pos hseen]
    exact h
  · rw [if_neg hseen]
    by_cases hr : (robotsPhase cfg o st.robotsCache url0).1 = true
    · rw [if_pos hr]
      obtain ⟨_, _, f3, f4, f5⟩ := fetchPhase_spec cfg o
        { st with seen := st.seen ++ [url0], robotsCache := (robotsPhase cfg o st.robotsCache url0).2, fetchLog := st.fetchLog ++ [(url0, depth)] } url0 depth
      refine ⟨?_, ?_, ?_⟩
      · intro it hit
        rcases f4 it hit with h1 | h1
        · exact h.1 it h1
        · rw [h1.2]
          omega
      · intro it hit
        rcases f5 it hit with h1 | h1
        · exact h.2.1 it h1
        · rw [h1.2]
          omega
      · intro it hit
        rw [f3] at hit
        have hit2 : it ∈ st.fetchLog ++ [(url0, depth)] := hit
        rcases List.mem_append.mp hit2 with h1 | h1
        · exact h.2.2 it h1
        · rcases List.mem_singleton.mp h1 with rfl
          exact hdep
    · rw [if_neg hr]
      exact ⟨h.1, h.2.1, h.2.2⟩

/-- crawlStep preserves the depth invariant. -/
theorem crawlStep_depthInv (cfg : Config) (o : Oracle) (st : CrawlState)
    (h : DepthInv cfg.depth st) : DepthInv cfg.depth (crawlStep cfg o st) := by
  unfold crawlStep
  cases hq : st.queue with
  | nil => exact h
  | cons item tl =>
      have hd : item.2 ≤ cfg.depth := h.1 item (by rw [hq]; exact List.mem_cons_self _ _)
      have h2 : DepthInv cfg.depth { st with queue := tl } := by
        refine ⟨?_, h.2.1, h.2.2⟩
        intro it hit
        exact h.1 it (by rw [hq]; exact List.mem_cons_of_mem _ hit)
      exact stepItem_depthInv cfg o _ item.1 item.2 hd h2

/-- The email map invariant only depends on the emailsBest component. -/
theorem emailInv_transfer (allowed : List String) (s1 s2 : CrawlState)
    (he : s2.emailsBest = s1.emailsBest) (h : EmailMapInv allowed s1) :
    EmailMapInv allowed s2 := by
  constructor
  · rw [he]
    exact h.1
  · intro pr hpr
    rw [he] at hpr
    exact h.2 pr hpr

/-- The email recording loop preserves the email map invariant. -/
theorem recordEmails_emailInv (o : Oracle) (allowed : List String) (u t x : String)
    (st : CrawlState) (h : EmailMapInv allowed st) :
    EmailMapInv allowed (recordEmails o allowed u t x st) := by
  unfold recordEmails
  refine foldlPreserveMem (fun s : CrawlState => EmailMapInv allowed s)
    (extract_emails (o.emailMatches x) allowed) _ ?_ st h
  intro s email hmem hps
  constructor
  · exact record_email_nodup s.emailsBest email _ hps.1
  · intro pr hpr
    rcases mem_record_email s.emailsBest email _ pr hpr with h1 | h1
    · exact hps.2 pr h1
    · subst h1
      obtain ⟨hlow, hma⟩ := extract_emails_value _ allowed email hmem
      obtain ⟨dm, hdm, d, hd, hcond⟩ := email_matches_allowed_parts email allowed hma
      have hdml : dm = lowerS dm := lowered_afterFirstAt email dm hlow hdm
      refine ⟨⟨dm, hdm, ?_⟩, hlow, ⟨d, hd, ?_⟩⟩
      · show (afterFirstAt email).getD "" = dm
        rw [hdm]
        rfl
      · show (afterFirstAt email).getD "" = d ∨
          pyEndsWith ((afterFirstAt email).getD "") ("." ++ d) = true
        rw [hdm]
        show dm = d ∨ pyEndsWith dm ("." ++ d) = true
        rw [hdml]
        exact hcond

/-- processPage preserves the email map invariant. -/
theorem processPage_emailInv (cfg : Config) (o : Oracle) (st : CrawlState) (depth : Int)
    (u t x : String) (links : List String)
    (h : EmailMapInv (mkAllowed cfg.domains) st) :
    EmailMapInv (mkAllowed cfg.domains) (processPage cfg o st depth u t x links) := by
  unfold processPage
  by_cases hp : cfg.includePhones = true
  · rw [if_pos hp]
    refine emailInv_transfer _ _ _ (recordPhones_emailsBest o u t x _) ?_
    exact recordEmails_emailInv o _ u t x _ (emailInv_transfer _ st _ rfl h)
  · rw [if_neg hp]
    exact recordEmails_emailInv o _ u t x _ (emailInv_transfer _ st _ rfl h)

/-- afterStatus preserves the email map invariant. -/
theorem afterStatus_emailInv (cfg : Config) (o : Oracle) (st : CrawlState) (depth : Int)
    (resp : Resp) (h : EmailMapInv (mkAllowed cfg.domains) st) :
    EmailMapInv (mkAllowed cfg.domains) (afterStatus cfg o st depth resp) := by
  unfold afterStatus
  by_cases h1 : is_content_html (lowerS resp.contentType) = true
  · rw [if_pos h1]
    exact processPage_emailInv cfg o st depth _ _ _ _ h
  · rw [if_neg h1]
    by_cases h2 : (cfg.includePdfs && is_content_pdf (lowerS resp.contentType)) = true
    · rw [if_pos h2]
      exact processPage_emailInv cfg o st depth _ _ _ _ h
    · rw [if_neg h2]
      exact h

/-- processResp preserves the email map invariant. -/
theorem processResp_emailInv (cfg : Config) (o : Oracle) (st : CrawlState) (depth : Int)
    (resp : Resp) (h : EmailMapInv (mkAllowed cfg.domains) st) :
    EmailMapInv (mkAllowed cfg.domains) (processResp cfg o st depth resp) := by
  unfold processResp
  by_cases hs : resp.status ≠ 200
  · rw [if_pos hs]
    exact h
  · rw [if_neg hs]
    exact afterStatus_emailInv cfg o st depth resp h

/-- stepItem preserves the email map invariant. -/
theorem stepItem_emailInv (cfg : Config) (o : Oracle) (st : CrawlState) (url0 : String)
    (depth : Int) (h : EmailMapInv (mkAllowed cfg.domains) st) :
    EmailMapInv (mkAllowed cfg.domains) (stepItem cfg o st url0 depth) := by
  unfold stepItem
  by_cases hseen : st.seen.contains url0 = true
  · rw [if_pos hseen]
    exact h
  · rw [if_neg hseen]
    by_cases hr : (robotsPhase cfg o st.robotsCache url0).1 = true
    · rw [if_pos hr]
      unfold fetchPhase
      cases o.fetch url0 with
      | none => exact emailInv_transfer _ st _ rfl h
      | some resp =>
          exact processResp_emailInv cfg o _ depth resp (emailInv_transfer _ st _ rfl h)
    · rw [if_neg hr]
      exact emailInv_transfer _ st _ rfl h

/-- crawlStep preserves the email map invariant. -/
theorem crawlStep_emailInv (cfg : Config) (o : Oracle) (st : CrawlState)
    (h : EmailMapInv (mkAllowed cfg.domains) st) :
    EmailMapInv (mkAllowed cfg.domains) (crawlStep cfg o st) := by
  unfold crawlStep
  cases st.queue with
  | nil => exact h
  | cons item tl => exact stepItem_emailInv cfg o _ item.1 item.2 ⟨h.1, h.2⟩

/-- C2: no URL is fetched more than once: across any crawl the fetch attempt
log carries pairwise distinct URLs, and a dequeued URL that is already in the
visited set is discarded before any politeness check or fetch, changing
nothing but the queue. -/
theorem crawl_fetch_at_most_once :
    (∀ (cfg : Config) (o : Oracle) (seeds : List String) (fuel : Nat),
      ((crawlRun cfg o fuel (initState seeds)).fetchLog.map Prod.fst).Nodup) ∧
    (∀ (cfg : Config) (o : Oracle) (st : CrawlState) (url0 : String) (depth : Int)
      (tl : List (String × Int)), st.queue = (url0, depth) :: tl →
      st.seen.contains url0 = true → crawlStep cfg o st = { st with queue := tl }) := by
  constructor
  · intro cfg o seeds fuel
    have hinit : FetchInv (initState seeds) := by
      obtain ⟨h1, _, _, h4, _, _, _, _⟩ := initState_spec seeds
      constructor
      · rw [h4]
        simp
      · intro u hu
        rw [h4] at hu
        simp at hu
    exact (crawlRun_preserve cfg o FetchInv (crawlStep_fetchInv cfg o) fuel _ hinit).1
  · intro cfg o st url0 depth tl hq hseen
    have hstep : crawlStep cfg o st = stepItem cfg o { st with queue := tl } url0 depth := by
      unfold crawlStep
      rw [hq]
    rw [hstep]
    unfold stepItem
    rw [if_pos hseen]

/-- Witness for C2: a two-step concrete crawl has a duplicate-free fetch log,
and a concrete state whose queued URL is already visited is discarded with
only the queue popped. -/
theorem crawl_fetch_at_most_once_witness :
    ((crawlRun cfgW oracleW 3 (initState ["http://a.example.com/"])).fetchLog.map
      Prod.fst).Nodup ∧
    crawlStep cfgW oracleW stSeenW = { stSeenW with queue := [] } :=
  ⟨crawl_fetch_at_most_once.1 cfgW oracleW ["http://a.example.com/"] 3,
   crawl_fetch_at_most_once.2 cfgW oracleW stSeenW "http://a.example.com/" 0 [] rfl
     (by decide)⟩

/-- C5 counterexample: a 204 status is in the 2xx class, but the code discards
the response at the status check instead of dispatching it, because the check
is status not equal to 200. -/
theorem status_2xx_claim_false :
    ¬ (∀ (cfg : Config) (o : Oracle) (st : CrawlState) (depth : Int) (resp : Resp),
        (¬(200 ≤ resp.status ∧ resp.status < 300) →
          processResp cfg o st depth resp = st) ∧
        (200 ≤ resp.status ∧ resp.status < 300 →
          processResp cfg o st depth resp = afterStatus cfg o st depth resp)) := by
  intro hclaim
  have h := (hclaim cfgW oracleW emptyState 0 resp204).2 (by decide)
  have hpages := congrArg CrawlState.pages h
  exact absurd hpages (by decide)

/-- C5 amended: the status gate discards exactly the responses whose status is
not 200; only a status of exactly 200 proceeds to content-type dispatch. -/
theorem status_check_only_200 (cfg : Config) (o : Oracle) (st : CrawlState)
    (depth : Int) (resp : Resp) :
    (resp.status ≠ 200 → processResp cfg o st depth resp = st) ∧
    (resp.status = 200 → processResp cfg o st depth resp = afterStatus cfg o st depth resp) := by
  unfold processResp
  constructor
  · intro h
    rw [if_pos h]
  · intro h
    rw [if_neg (by simp [h])]

/-- Witness for C5 at the concrete 204 response. -/
theorem status_check_only_200_witness :
    resp204.status ≠ 200 ∧ processResp cfgW oracleW emptyState 0 resp204 = emptyState :=
  ⟨by decide, (status_check_only_200 cfgW oracleW emptyState 0 resp204).1 (by decide)⟩

/-- C6: email deduplication is first-seen-wins: re-recording an existing key
leaves the map unchanged, any fold of record events keeps at most one record
per key, the record stored under a key is the whole record of the first event
carrying that key, and every crawl keeps the email map keys duplicate free. -/
theorem email_dedup_first_seen_wins :
    (∀ (m : List (String × Record)) (e : String) (r : Record),
      m.any (fun pr => pr.1 == e) = true → record_email m e r = m) ∧
    (∀ events : List (String × Record),
      ((events.foldl (fun m p => record_email m p.1 p.2) []).map Prod.fst).Nodup) ∧
    (∀ (events : List (String × Record)) (e : String),
      lookupA (events.foldl (fun m p => record_email m p.1 p.2) []) e =
        (events.find? (fun p => p.1 == e)).map Prod.snd) ∧
    (∀ (cfg : Config) (o : Oracle) (seeds : List String) (fuel : Nat),
      ((crawlRun cfg o fuel (initState seeds)).emailsBest.map Prod.fst).Nodup) := by
  refine ⟨?_, ?_, ?_, ?_⟩
  · intro m e r h
    unfold record_email
    rw [if_pos h]
  · intro events
    refine foldlPreserve (fun m : List (String × Record) => (m.map Prod.fst).Nodup)
      _ ?_ events [] (by simp)
    intro m p h
    exact record_email_nodup m p.1 p.2 h
  · intro events e
    rw [foldRecord_lookup]
    rfl
  · intro cfg o seeds fuel
    have hinit : EmailMapInv (mkAllowed cfg.domains) (initState seeds) := by
      obtain ⟨_, _, _, _, h5, _, _, _⟩ := initState_spec seeds
      constructor
      · rw [h5]
        simp
      · intro pr hpr
        rw [h5] at hpr
        simp at hpr
    exact (crawlRun_preserve cfg o (EmailMapInv (mkAllowed cfg.domains))
      (crawlStep_emailInv cfg o) fuel _ hinit).1

/-- Witness for C6: re-recording the key of a present entry returns the map
unchanged. -/
theorem email_dedup_first_seen_wins_witness :
    ([(("a@b.com" : String), noHitsRecord "t1")].any (fun pr => pr.1 == "a@b.com") = true) ∧
    record_email [("a@b.com", noHitsRecord "t1")] "a@b.com" (noHitsRecord "t2") =
      [("a@b.com", noHitsRecord "t1")] :=
  ⟨by decide,
   email_dedup_first_seen_wins.1 [("a@b.com", noHitsRecord "t1")] "a@b.com"
     (noHitsRecord "t2") (by decide)⟩

/-- C7 counterexample: with a configured depth of minus one the seed work item
is still enqueued at depth zero, above the configured bound, refuting the
claim as stated. -/
theorem depth_bound_claim_false :
    ¬ (∀ (cfg : Config) (o : Oracle) (seeds : List String) (fuel : Nat),
        ∀ it ∈ (crawlRun cfg o fuel (initState seeds)).enqLog, it.2 ≤ cfg.depth) := by
  intro hclaim
  have h := hclaim { cfgW with depth := -1 } oracleW ["http://a.example.com/"] 0
    ("http://a.example.com/", 0) (by decide)
  exact absurd h (by decide)

/-- C7 amended: for every crawl whose configured maximum depth is
nonnegative, every work item ever enqueued has depth at most the maximum, and
every fetched page is at depth at most the maximum, so links discovered at the
maximum depth are never enqueued. -/
theorem depth_bound_holds (cfg : Config) (o : Oracle) (seeds : List String) (fuel : Nat)
    (hd : 0 ≤ cfg.depth) :
    (∀ it ∈ (crawlRun cfg o fuel (initState seeds)).enqLog, it.2 ≤ cfg.depth) ∧
    (∀ it ∈ (crawlRun cfg o fuel (initState seeds)).fetchLog, it.2 ≤ cfg.depth) := by
  have hinit : DepthInv cfg.depth (initState seeds) := by
    obtain ⟨_, _, _, h4, _, _, h7, h8⟩ := initState_spec seeds
    refine ⟨fun it hit => ?_, fun it hit => ?_, fun it hit => ?_⟩
    · rw [h7 it hit]
      exact hd
    · rw [h8 it hit]
      exact hd
    · rw [h4] at hit
      simp at hit
  have h := crawlRun_preserve cfg o (DepthInv cfg.depth) (crawlStep_depthInv cfg o)
    fuel _ hinit
  exact ⟨h.2.1, h.2.2⟩

/-- Witness for C7 at the concrete crawl: the fetched seed stays within the
depth bound of one. -/
theorem depth_bound_holds_witness :
    (0 : Int) ≤ cfgW.depth ∧ (("http://a.example.com/", (0 : Int)).2 ≤ cfgW.depth) :=
  ⟨by decide,
   (depth_bound_holds cfgW oracleW ["http://a.example.com/"] 2 (by decide)).2
     ("http://a.example.com/", 0) (by decide)⟩

/-- C8: a crawl that ends with zero email records and zero phone records
finalizes to exactly one record of type info with value no_hits, and the final
result set is never empty. -/
theorem finalize_no_hits_sentinel (now : String) (eb : List (String × Record))
    (res : List Record) :
    ((finalize_results now [] []).map (fun r => (r.type, r.value)) =
      [("info", "no_hits")]) ∧
    (finalize_results now [] []).length = 1 ∧
    finalize_results now eb res ≠ [] := by
  refine ⟨rfl, rfl, ?_⟩
  unfold finalize_results
  by_cases he : (res ++ eb.map (fun pr => pr.2)).isEmpty = true
  · rw [if_pos he]
    simp
  · rw [if_neg he]
    intro hnil
    exact he (by rw [hnil]; rfl)

/-- C10: with a nonempty scope set, every stored email record has its domain
field equal to the substring of its lowercase value after the first at sign,
and that domain equals a scope entry or ends with a dot and a scope entry,
whatever the oracle does, including following external links. -/
theorem email_records_in_scope (cfg : Config) (o : Oracle) (seeds : List String)
    (fuel : Nat) (_hS : mkAllowed cfg.domains ≠ []) :
    ∀ pr ∈ (crawlRun cfg o fuel (initState seeds)).emailsBest,
      (∃ dm, afterFirstAt pr.2.value = some dm ∧ pr.2.domain = dm) ∧
      pr.2.value = lowerS pr.2.value ∧
      (∃ d ∈ mkAllowed cfg.domains, pr.2.domain = d ∨
        pyEndsWith pr.2.domain ("." ++ d) = true) := by
  have hinit : EmailMapInv (mkAllowed cfg.domains) (initState seeds) := by
    obtain ⟨_, _, _, _, h5, _, _, _⟩ := initState_spec seeds
    constructor
    · rw [h5]
      simp
    · intro pr hpr
      rw [h5] at hpr
      simp at hpr
  exact (crawlRun_preserve cfg o (EmailMapInv (mkAllowed cfg.domains))
    (crawlStep_emailInv cfg o) fuel _ hinit).2

/-- Witness for C10: the record stored by the concrete crawl satisfies the
scope invariant. -/
theorem email_records_in_scope_witness :
    mkAllowed cfgW.domains ≠ [] ∧
    ((∃ dm, afterFirstAt emailEntryW.2.value = some dm ∧ emailEntryW.2.domain = dm) ∧
      emailEntryW.2.value = lowerS emailEntryW.2.value ∧
      (∃ d ∈ mkAllowed cfgW.domains, emailEntryW.2.domain = d ∨
        pyEndsWith emailEntryW.2.domain ("." ++ d) = true)) :=
  ⟨by decide,
   email_records_in_scope cfgW oracleW ["http://a.example.com/"] 2 (by decide)
     emailEntryW (by decide)⟩
